import Mathlib

/-!
# Verification of the N-Queens CSP solver (`solver.py`)

Shallow embedding of the `NQueensCSP` class: the domain store is a
`List (List ℕ)` indexed by column variable, the assignment is an association
list `List (ℕ × ℕ)` mirroring a Python dict in insertion order, and each method
of the class becomes a Lean function.  Python's machine-unbounded ints are
modelled by `ℕ`/`ℤ`; a Python exception is modelled by an error value.
-/

namespace NQ

/-- A partial assignment: Python dict from column variable to row value,
in insertion order. -/
abbrev Assignment := List (ℕ × ℕ)

/-- The domain store: `domains[i]` is the list of candidate rows of column `i`
(`self.domains`, a dict with keys `0..n-1`). -/
abbrev Domains := List (List ℕ)

/-- Python `abs(a - b)` on ints, for the natural numbers that occur here. -/
def absDiff (a b : ℕ) : ℕ := ((a : ℤ) - (b : ℤ)).natAbs

/-- Membership test `k in assignment` on the Python dict. -/
def keysMem (assignment : Assignment) (k : ℕ) : Bool :=
  assignment.any (fun p => p.1 == k)

/-- Python dict write `d[k] = v` (also `{**d, k: v}`): overwrite in place when
the key is present, append otherwise. -/
def dictInsert (assignment : Assignment) (k v : ℕ) : Assignment :=
  if keysMem assignment k then
    assignment.map (fun p => if p.1 == k then (k, v) else p)
  else
    assignment ++ [(k, v)]

/-- Python dict delete `del d[k]` (at the call sites the key is present, so
the KeyError branch of `del` cannot fire). -/
def dictErase (assignment : Assignment) (k : ℕ) : Assignment :=
  assignment.filter (fun p => !(p.1 == k))

/-- A well-formed partial assignment for an `n`-variable problem, as the data
model describes it: keys are unique column variables in `[0, n)`.  Every
assignment the search builds from `{}` has this shape. -/
def WFAssign (n : ℕ) (a : Assignment) : Prop :=
  (a.map Prod.fst).Nodup ∧ ∀ k ∈ a.map Prod.fst, k < n

/-- Embeds `check_consistency` (solver.py:46-55): a candidate `(current_var,
current_val)` conflicts with an entry `(assigned_var, assigned_val)` when the
rows are equal or the row distance equals the column distance. -/
def check_consistency (current_var current_val : ℕ) (assignment : Assignment) : Bool :=
  assignment.all fun p =>
    !((p.2 == current_val) || (absDiff p.2 current_val == absDiff p.1 current_var))

/-- The Python sort key `(len(self.domains[variable]), -variable)` used by
`select_unassigned` (solver.py:64). -/
def selKey (doms : Domains) (v : ℕ) : ℕ × ℤ := ((doms.getD v []).length, -(v : ℤ))

/-- Lexicographic `<` on the sort key, as Python compares tuples. -/
def selKeyLt (p q : ℕ × ℤ) : Bool :=
  decide (p.1 < q.1) || ((p.1 == q.1) && decide (p.2 < q.2))

/-- The left fold Python's `min(..., key=...)` performs: keep the current
best, replacing it only when a later element's key is strictly smaller. -/
def selFold (doms : Domains) (u : ℕ) (us : List ℕ) : ℕ :=
  us.foldl (fun best v => if selKeyLt (selKey doms v) (selKey doms best) then v else best) u

/-- Embeds `select_unassigned` (solver.py:58-65): `min` over the unassigned variables
by key `(domain size, -variable)`; `none` models the `ValueError` Python's
`min` raises on an empty sequence. -/
def select_unassigned (doms : Domains) (assignment : Assignment) : Option ℕ :=
  match (List.range doms.length).filter (fun v => !(keysMem assignment v)) with
  | [] => none
  | u :: us => some (selFold doms u us)

/-- Embeds `calculate_lcv` (solver.py:72-84): how many values of the other unassigned
variables stay consistent with the assignment extended by
`selected_variable := value`.  (Python rebuilds `{**current_assignment,
selected_variable: value}` at every inner check; the dict built is the same
each time, so it is hoisted into a `let`.) -/
def calculate_lcv (doms : Domains) (selected_variable : ℕ)
    (current_assignment : Assignment) (value : ℕ) : ℕ :=
  let extended := dictInsert current_assignment selected_variable value
  ((List.range doms.length).map (fun adjacent_variable =>
    if adjacent_variable != selected_variable
        && !(keysMem current_assignment adjacent_variable) then
      (doms.getD adjacent_variable []).countP
        (fun possible_value => check_consistency adjacent_variable possible_value extended)
    else 0)).sum

/-- Insert a `(score, value)` pair into a list sorted by descending score,
after every pair of score ≥ its own (so that ties keep insertion order). -/
def insertDesc (p : ℕ × ℕ) : List (ℕ × ℕ) → List (ℕ × ℕ)
  | [] => [p]
  | q :: qs => if q.1 < p.1 then p :: q :: qs else q :: insertDesc p qs

/-- Stable descending sort by score (first component): Python's
`sorted(..., key=..., reverse=True)` is exactly the stable descending sort,
and inserting the elements left to right with `insertDesc` computes it. -/
def sortDesc (l : List (ℕ × ℕ)) : List (ℕ × ℕ) :=
  l.foldl (fun acc p => insertDesc p acc) []

/-- Embeds `prioritize_domain_values` (solver.py:67-87): decorate each domain value
with its LCV score (Python's `sorted` evaluates `key` once per element), sort
stably by descending score, undecorate. -/
def prioritize_domain_values (doms : Domains) (selected_variable : ℕ)
    (current_assignment : Assignment) : List ℕ :=
  (sortDesc ((doms.getD selected_variable []).map
    (fun v => (calculate_lcv doms selected_variable current_assignment v, v)))).map Prod.snd

/-- Python `list.remove(v)`: drop the first occurrence of `v`. -/
def list_remove : List ℕ → ℕ → List ℕ
  | [], _ => []
  | a :: as_, v => if a == v then as_ else a :: list_remove as_ v

/-- The removal test of `revise_domains` (solver.py:98), kept with its
variable shadowing: the inner generator rebinds `value_y`, so the body of the
outer `all` is `value_x not in domains[variable_y]`, repeated once per element
of `domains[variable_y]` (and vacuously true when that domain is empty). -/
def revise_condition (dy : List ℕ) (value_x : ℕ) : Bool :=
  dy.all (fun _ => !(dy.any (fun value_y => value_x == value_y)))

/-- The `for value_x in self.domains[variable_x][:]` loop of `revise_domains`
(solver.py:96-101): walk a copy of the original domain, removing the first
occurrence of each value whose removal test holds from the current domain. -/
def reviseLoop (dy : List ℕ) : List ℕ → List ℕ → Bool → List ℕ × Bool
  | [], cur, changed => (cur, changed)
  | v :: copyRest, cur, changed =>
      if revise_condition dy v then reviseLoop dy copyRest (list_remove cur v) true
      else reviseLoop dy copyRest cur changed

/-- Embeds `revise_domains` (solver.py:89-102).  Only `domains[variable_x]` is
mutated; every caller passes `variable_x ≠ variable_y` (constraint pairs have
distinct ends), so `domains[variable_y]` is fixed for the whole loop and can
be read once. -/
def revise_domains (doms : Domains) (variable_x variable_y : ℕ) : Domains × Bool :=
  let dx := doms.getD variable_x []
  let dy := doms.getD variable_y []
  let r := reviseLoop dy dx dx false
  (doms.set variable_x r.1, r.2)

/-- Sum of the sizes of all domains (decreases whenever `revise_domains`
reports a change, which bounds the AC-3 worklist loop). -/
def totalSize (doms : Domains) : ℕ := (doms.map List.length).sum

/-- The `while constraints_queue` loop of `apply_arcconsistency_algorithm`
(solver.py:110-122), with explicit fuel: `none` means the fuel ran out, which
never happens for the fuel chosen in `apply_arcconsistency_algorithm`
(see `ac3Loop_total`).  On a change that empties `domains[current_var]` the
loop reports failure at once; otherwise a change re-enqueues `(adjacent_var,
current_var)` for every constraint head `adjacent_var ≠ next_var`. -/
def ac3Loop (cs : List (ℕ × ℕ)) : ℕ → Domains → List (ℕ × ℕ) → Option (Bool × Domains)
  | 0, _, _ => none
  | _ + 1, doms, [] => some (true, doms)
  | fuel + 1, doms, (current_var, next_var) :: rest =>
      let r := revise_domains doms current_var next_var
      if r.2 then
        if r.1.getD current_var [] = [] then some (false, r.1)
        else
          ac3Loop cs fuel r.1
            (rest ++ (cs.filter (fun p => !(p.1 == next_var))).map (fun p => (p.1, current_var)))
      else
        ac3Loop cs fuel r.1 rest

/-- Fuel that always suffices for `ac3Loop` (proved in `ac3Loop_total`):
every processed pair either shrinks the total domain size or shortens the
queue, and a shrink enqueues at most `cs.length` new pairs. -/
def ac3Fuel (doms : Domains) (cs : List (ℕ × ℕ)) : ℕ :=
  totalSize doms * (cs.length + 1) + cs.length + 1

/-- Embeds `apply_arcconsistency_algorithm` (solver.py:104-122): seed the worklist
with all constraints and run the loop. -/
def apply_arcconsistency_algorithm (doms : Domains) (cs : List (ℕ × ℕ)) :
    Option (Bool × Domains) :=
  ac3Loop cs (ac3Fuel doms cs) doms cs

/-- The `for possible_value in viable_values` loop of `attempt_solution`
(solver.py:137-148).  `rec` is the recursive call at one fuel less; the
second component of a result tracks the state of the mutated dict on return,
and `none` propagates a fuel failure of `rec`. -/
def tryValues (next_variable : ℕ) (rec : Assignment → Option (Option Assignment × Assignment)) :
    List ℕ → Assignment → Option (Option Assignment × Assignment)
  | [], cur => some (none, cur)
  | possible_value :: rest, cur =>
      if check_consistency next_variable possible_value cur then
        match rec (dictInsert cur next_variable possible_value) with
        | none => none
        | some (some sol, st) => some (some sol, st)
        | some (none, st) => tryValues next_variable rec rest (dictErase st next_variable)
      else tryValues next_variable rec rest cur

/-- Embeds `attempt_solution` (solver.py:125-151), with fuel bounding the recursion
depth (the depth is at most `doms.length + 1` from a well-formed assignment,
so the fuel used in `resolve_core` never runs out on a reachable call).
The result pairs the returned value (`some` = solution, `none` = Python
`None`) with the state of the assignment dict on return; an overall `none`
models fuel exhaustion, and the `select_unassigned` failure arm models the
`ValueError` of `min` on an empty sequence. -/
def attempt_solution (doms : Domains) : ℕ → Assignment → Option (Option Assignment × Assignment)
  | 0, _ => none
  | fuel + 1, current_assignment =>
      if current_assignment.length = doms.length then
        some (some current_assignment, current_assignment)
      else
        match select_unassigned doms current_assignment with
        | none => none
        | some next_variable =>
            tryValues next_variable (attempt_solution doms fuel)
              (prioritize_domain_values doms next_variable current_assignment)
              current_assignment

/-- Domain initialization of `input_reader` (solver.py:39):
`{i: list(range(n)) for i in range(n)}`. -/
def initDomains (n : ℕ) : Domains := (List.range n).map (fun _ => List.range n)

/-- Constraint generation of `input_reader` (solver.py:41):
`[(i, j) for i in range(n) for j in range(n) if i != j]`. -/
def constraintsOf (n : ℕ) : List (ℕ × ℕ) :=
  ((List.range n).map (fun i =>
    (List.range n).filterMap (fun j => if i = j then none else some (i, j)))).flatten

/-- How a run of the program can end, beyond a normal result. -/
inductive RunError where
  /-- Models that `resolve_nqueens` reaches line 223 with `solution_assignment` never
  assigned (AC-3 returned `False`), raising `UnboundLocalError`. -/
  | unboundLocal : RunError
  /-- A fuel bound of the embedding ran out (never happens on the fuel used). -/
  | outOfFuel : RunError
  deriving DecidableEq

/-- The solving core of `resolve_nqueens` (solver.py:202-227): run AC-3; on
success run the backtracking search from the empty assignment and report its
result; when AC-3 returns `False` the search is skipped, `solution_assignment`
is never bound, and line 223 raises `UnboundLocalError`. -/
def resolve_core (doms : Domains) (cs : List (ℕ × ℕ)) : Except RunError (Option Assignment) :=
  match apply_arcconsistency_algorithm doms cs with
  | none => Except.error RunError.outOfFuel
  | some (false, _) => Except.error RunError.unboundLocal
  | some (true, doms') =>
      match attempt_solution doms' (doms'.length + 1) [] with
      | none => Except.error RunError.outOfFuel
      | some (res, _) => Except.ok res

/-- The external input `input_reader` (solver.py:20-44) consumes: either the
`"pass"` branch (board size typed by the user, queen columns drawn at random)
or the file branch (queen columns parsed from the file, board size = number
of lines). -/
inductive InputSource where
  | random (n : ℕ) (randomRows : List ℤ) : InputSource
  | file (qcolumns : List ℤ) : InputSource

/-- The board size `input_reader` derives from its input. -/
def boardSize : InputSource → ℕ
  | InputSource.random n _ => n
  | InputSource.file qcolumns => qcolumns.length

/-- Embeds `input_reader` (solver.py:20-44): returns the initial queen columns and
initializes the domain store and the constraint set, both from the board size
alone. -/
def input_reader (src : InputSource) : List ℤ × Domains × List (ℕ × ℕ) :=
  match src with
  | InputSource.random n randomRows => (randomRows, initDomains n, constraintsOf n)
  | InputSource.file qcolumns =>
      (qcolumns, initDomains qcolumns.length, constraintsOf qcolumns.length)

/-- Embeds `resolve_nqueens` (solver.py:192-227) restricted to its solving behaviour:
read the input, then run the core (printing, timing and plotting discarded). -/
def resolve_nqueens (src : InputSource) : Except RunError (Option Assignment) :=
  let r := input_reader src
  resolve_core r.2.1 r.2.2

/-- The `solve(n)` entry point of the specification: domains and constraints
initialized from `n`, AC-3, then backtracking search from the empty
assignment. -/
def solve (n : ℕ) : Except RunError (Option Assignment) :=
  resolve_core (initDomains n) (constraintsOf n)

/-! ## Generic helper facts -/

instance instDecEqExcept {ε α : Type} [DecidableEq ε] [DecidableEq α] :
    DecidableEq (Except ε α) := fun x y =>
  match x, y with
  | Except.ok a, Except.ok b =>
      if h : a = b then isTrue (by rw [h]) else isFalse (by simp [h])
  | Except.error a, Except.error b =>
      if h : a = b then isTrue (by rw [h]) else isFalse (by simp [h])
  | Except.ok _, Except.error _ => isFalse (by simp)
  | Except.error _, Except.ok _ => isFalse (by simp)

theorem set_getD_self {α : Type} (d : α) :
    ∀ (l : List α) (i : ℕ), l.set i (l.getD i d) = l
  | [], _ => rfl
  | a :: t, 0 => by simp [List.getD]
  | a :: t, i + 1 => by
      simpa [List.set, List.getD] using set_getD_self d t i

/-! ## Characterization of `revise_domains` -/

theorem list_remove_cons_self (v : ℕ) (t : List ℕ) : list_remove (v :: t) v = t := by
  simp [list_remove]

theorem list_remove_cons_ne (w v : ℕ) (t : List ℕ) (h : w ≠ v) :
    list_remove (w :: t) v = w :: list_remove t v := by
  simp [list_remove, h]

theorem reviseLoop_eq (dy : List ℕ) :
    ∀ (copy cur : List ℕ) (b : Bool),
      reviseLoop dy copy cur b =
        ((copy.filter (revise_condition dy)).foldl list_remove cur,
          b || copy.any (revise_condition dy))
  | [], cur, b => by simp [reviseLoop]
  | v :: rest, cur, b => by
      by_cases h : revise_condition dy v = true
      · simp [reviseLoop, h, List.filter_cons, reviseLoop_eq dy rest (list_remove cur v) true]
      · simp [reviseLoop, h, List.filter_cons, reviseLoop_eq dy rest cur b]

theorem foldl_remove_cons (v : ℕ) :
    ∀ (ws t : List ℕ), (∀ w ∈ ws, w ≠ v) →
      ws.foldl list_remove (v :: t) = v :: ws.foldl list_remove t
  | [], _, _ => rfl
  | w :: ws, t, h => by
      have hw : v ≠ w := (h w (List.mem_cons_self w ws)).symm
      simp only [List.foldl_cons, list_remove_cons_ne v w t hw]
      exact foldl_remove_cons v ws (list_remove t w) (fun u hu => h u (List.mem_cons_of_mem w hu))

theorem filter_foldl_remove (C : ℕ → Bool) :
    ∀ l : List ℕ, (l.filter C).foldl list_remove l = l.filter (fun v => !(C v))
  | [] => rfl
  | v :: t => by
      by_cases h : C v = true
      · simp [List.filter_cons, h, list_remove_cons_self, filter_foldl_remove C t]
      · have hC : C v = false := Bool.eq_false_iff.mpr h
        have hne : ∀ w ∈ t.filter C, w ≠ v := by
          intro w hw hvw
          rw [List.mem_filter] at hw
          rw [hvw] at hw
          exact h hw.2
        rw [List.filter_cons, List.filter_cons, if_neg (by simp [hC]),
          if_pos (by simp [hC]), foldl_remove_cons v (t.filter C) t hne,
          filter_foldl_remove C t]

theorem revise_condition_iff (dy : List ℕ) (v : ℕ) :
    revise_condition dy v = true ↔ v ∉ dy := by
  unfold revise_condition
  by_cases hv : v ∈ dy
  · have hany : dy.any (fun w => v == w) = true := List.any_eq_true.mpr ⟨v, hv, by simp⟩
    constructor
    · intro hall
      have := List.all_eq_true.mp hall v hv
      rw [hany] at this
      simp at this
    · intro h
      exact absurd hv h
  · have hany : dy.any (fun w => v == w) = false := by
      rw [List.any_eq_false]
      intro w hw
      simp only [beq_iff_eq]
      rintro rfl
      exact hv hw
    have hfun : (fun _ : ℕ => !(dy.any (fun value_y => v == value_y))) =
        fun _ : ℕ => true := by
      funext _
      rw [hany]
      rfl
    rw [hfun]
    simp [List.all_eq_true, hv]

theorem revise_domains_eq (doms : Domains) (x y : ℕ) :
    revise_domains doms x y =
      (doms.set x ((doms.getD x []).filter
          (fun v => !(revise_condition (doms.getD y []) v))),
        (doms.getD x []).any (revise_condition (doms.getD y []))) := by
  simp only [revise_domains]
  rw [reviseLoop_eq, filter_foldl_remove]
  simp

theorem revise_unchanged (doms : Domains) (x y : ℕ)
    (h : (revise_domains doms x y).2 = false) :
    (revise_domains doms x y).1 = doms := by
  rw [revise_domains_eq] at h ⊢
  simp only [List.any_eq_false] at h
  have hfe : (doms.getD x []).filter (fun v => !(revise_condition (doms.getD y []) v)) =
      doms.getD x [] := by
    apply List.filter_eq_self.mpr
    intro v hv
    have hc : revise_condition (doms.getD y []) v = false :=
      Bool.eq_false_iff.mpr (h v hv)
    rw [hc]
    rfl
  rw [hfe]
  exact set_getD_self [] doms x

theorem totalSize_set_lt :
    ∀ (doms : Domains) (x : ℕ) (l : List ℕ),
      l.length < (doms.getD x []).length → totalSize (doms.set x l) < totalSize doms
  | [], x, l, h => by simp [List.getD] at h
  | d :: t, 0, l, h => by
      have h' : l.length < d.length := by simpa using h
      show totalSize (l :: t) < totalSize (d :: t)
      simp only [totalSize, List.map_cons, List.sum_cons]
      exact Nat.add_lt_add_right h' _
  | d :: t, x + 1, l, h => by
      have h' : totalSize (t.set x l) < totalSize t :=
        totalSize_set_lt t x l (by simpa using h)
      show totalSize (d :: t.set x l) < totalSize (d :: t)
      simp only [totalSize, List.map_cons, List.sum_cons]
      exact Nat.add_lt_add_left (by simpa [totalSize] using h') _

theorem revise_changed_lt (doms : Domains) (x y : ℕ)
    (h : (revise_domains doms x y).2 = true) :
    totalSize (revise_domains doms x y).1 < totalSize doms := by
  rw [revise_domains_eq] at h ⊢
  apply totalSize_set_lt
  rw [List.length_filter_lt_length_iff_exists]
  rcases List.any_eq_true.mp h with ⟨v, hv, hc⟩
  refine ⟨v, hv, ?_⟩
  simp only [hc]
  decide

theorem getD_set_ne {α : Type} (d : α) (l : List α) (a : α) {i j : ℕ} (h : i ≠ j) :
    (l.set i a).getD j d = l.getD j d := by
  rw [List.getD_eq_getElem?_getD, List.getD_eq_getElem?_getD, List.getElem?_set_ne h]

theorem getD_set_subset (doms : Domains) (x : ℕ) (l : List ℕ)
    (hsub : l ⊆ doms.getD x []) (i : ℕ) :
    (doms.set x l).getD i [] ⊆ doms.getD i [] := by
  by_cases hix : x = i
  · subst hix
    by_cases hx : x < doms.length
    · rw [List.getD_eq_getElem?_getD, List.getElem?_set_self hx]
      simpa using hsub
    · rw [List.set_eq_of_length_le (Nat.le_of_not_lt hx)]
      exact List.Subset.refl _
  · rw [getD_set_ne [] doms l hix]
    exact List.Subset.refl _

theorem revise_subset (doms : Domains) (x y i : ℕ) :
    (revise_domains doms x y).1.getD i [] ⊆ doms.getD i [] := by
  rw [revise_domains_eq]
  exact getD_set_subset doms x _ (List.filter_subset' _) i

theorem revise_length (doms : Domains) (x y : ℕ) :
    (revise_domains doms x y).1.length = doms.length := by
  rw [revise_domains_eq]
  exact List.length_set doms x _

theorem getD_ne_nil_lt (doms : Domains) (x : ℕ) (h : doms.getD x [] ≠ []) :
    x < doms.length := by
  by_contra hx
  apply h
  rw [List.getD_eq_getElem?_getD, List.getElem?_eq_none (Nat.le_of_not_lt hx)]
  rfl

theorem revise_changed_lt_length (doms : Domains) (x y : ℕ)
    (h : (revise_domains doms x y).2 = true) : x < doms.length := by
  apply getD_ne_nil_lt
  rw [revise_domains_eq] at h
  rcases List.any_eq_true.mp h with ⟨v, hv, _⟩
  intro hnil
  rw [hnil] at hv
  exact List.not_mem_nil v hv

/-! ## The AC-3 worklist loop -/

theorem ac3_enqueue_le (cs : List (ℕ × ℕ)) (x y : ℕ) :
    ((cs.filter (fun p => !(p.1 == y))).map (fun p => (p.1, x))).length ≤ cs.length := by
  rw [List.length_map]
  exact List.length_filter_le _ _

theorem ac3Loop_total (cs : List (ℕ × ℕ)) :
    ∀ (fuel : ℕ) (doms : Domains) (queue : List (ℕ × ℕ)),
      totalSize doms * (cs.length + 1) + queue.length < fuel →
      (ac3Loop cs fuel doms queue).isSome = true := by
  intro fuel
  induction fuel with
  | zero => intro doms queue h; omega
  | succ fuel ih =>
      intro doms queue h
      match queue with
      | [] => rfl
      | (x, y) :: rest =>
          simp only [ac3Loop]
          by_cases hch : (revise_domains doms x y).2 = true
          · rw [if_pos hch]
            by_cases he : (revise_domains doms x y).1.getD x [] = []
            · rw [if_pos he]
              rfl
            · rw [if_neg he]
              apply ih
              have hlt := revise_changed_lt doms x y hch
              have hadds := ac3_enqueue_le cs x y
              have key : totalSize (revise_domains doms x y).1 * (cs.length + 1) +
                  (cs.length + 1) ≤ totalSize doms * (cs.length + 1) := by
                have h1 : totalSize (revise_domains doms x y).1 + 1 ≤ totalSize doms := hlt
                have h2 := Nat.mul_le_mul_right (cs.length + 1) h1
                calc totalSize (revise_domains doms x y).1 * (cs.length + 1) + (cs.length + 1)
                    = (totalSize (revise_domains doms x y).1 + 1) * (cs.length + 1) := by
                      rw [Nat.succ_mul]
                  _ ≤ totalSize doms * (cs.length + 1) := h2
              rw [List.length_append]
              simp only [List.length_cons] at h
              generalize totalSize (revise_domains doms x y).1 * (cs.length + 1) = A at key ⊢
              generalize totalSize doms * (cs.length + 1) = B at key h
              omega
          · rw [if_neg hch]
            have heq := revise_unchanged doms x y (Bool.eq_false_iff.mpr hch)
            rw [heq]
            apply ih
            simp only [List.length_cons] at h
            omega

theorem ac3Loop_invariant (cs : List (ℕ × ℕ)) :
    ∀ (fuel : ℕ) (doms : Domains) (queue : List (ℕ × ℕ)) (b : Bool) (doms' : Domains),
      ac3Loop cs fuel doms queue = some (b, doms') →
      (∀ i, doms'.getD i [] ⊆ doms.getD i []) ∧ doms'.length = doms.length ∧
        (b = false → ∃ x, x < doms'.length ∧ doms'.getD x [] = []) := by
  intro fuel
  induction fuel with
  | zero => intro doms queue b doms' h; exact absurd h (by simp [ac3Loop])
  | succ fuel ih =>
      intro doms queue b doms' h
      match queue with
      | [] =>
          simp only [ac3Loop, Option.some.injEq, Prod.mk.injEq] at h
          obtain ⟨hb, hd⟩ := h
          subst hb hd
          exact ⟨fun i => List.Subset.refl _, rfl, by simp⟩
      | (x, y) :: rest =>
          simp only [ac3Loop] at h
          by_cases hch : (revise_domains doms x y).2 = true
          · rw [if_pos hch] at h
            by_cases he : (revise_domains doms x y).1.getD x [] = []
            · rw [if_pos he] at h
              simp only [Option.some.injEq, Prod.mk.injEq] at h
              obtain ⟨hb, hd⟩ := h
              subst hd
              refine ⟨fun i => revise_subset doms x y i, revise_length doms x y, fun _ => ?_⟩
              refine ⟨x, ?_, he⟩
              rw [revise_length doms x y]
              exact revise_changed_lt_length doms x y hch
            · rw [if_neg he] at h
              obtain ⟨hsub, hlen, hemp⟩ := ih _ _ _ _ h
              refine ⟨fun i => (hsub i).trans (revise_subset doms x y i),
                hlen.trans (revise_length doms x y), hemp⟩
          · rw [if_neg hch] at h
            have heq := revise_unchanged doms x y (Bool.eq_false_iff.mpr hch)
            rw [heq] at h
            exact ih _ _ _ _ h

theorem apply_ac3_isSome (doms : Domains) (cs : List (ℕ × ℕ)) :
    (apply_arcconsistency_algorithm doms cs).isSome = true := by
  apply ac3Loop_total
  simp [ac3Fuel]


/-! ## AC-3 on the freshly initialized domain store -/

theorem constraintsOf_mem (n : ℕ) (p : ℕ × ℕ) (hp : p ∈ constraintsOf n) :
    p.1 < n ∧ p.2 < n ∧ p.1 ≠ p.2 := by
  simp only [constraintsOf, List.mem_flatten, List.mem_map] at hp
  obtain ⟨l, ⟨i, hi, hfi⟩, hpl⟩ := hp
  subst hfi
  rw [List.mem_filterMap] at hpl
  obtain ⟨j, hj, hij⟩ := hpl
  rw [List.mem_range] at hi hj
  by_cases h : i = j
  · rw [if_pos h] at hij
    exact absurd hij (by simp)
  · rw [if_neg h] at hij
    obtain rfl : (i, j) = p := by simpa using hij
    exact ⟨hi, hj, h⟩

theorem initDomains_getD (n x : ℕ) (hx : x < n) :
    (initDomains n).getD x [] = List.range n := by
  rw [initDomains, List.getD_eq_getElem?_getD, List.getElem?_map,
    List.getElem?_range hx]
  rfl

theorem initDomains_length (n : ℕ) : (initDomains n).length = n := by
  simp [initDomains]

theorem revise_init (n x y : ℕ) (hx : x < n) (hy : y < n) :
    revise_domains (initDomains n) x y = (initDomains n, false) := by
  rw [revise_domains_eq, initDomains_getD n x hx, initDomains_getD n y hy]
  have hcond : ∀ v ∈ List.range n, revise_condition (List.range n) v = false := by
    intro v hv
    rcases Bool.eq_false_or_eq_true (revise_condition (List.range n) v) with h | h
    · exact absurd hv ((revise_condition_iff (List.range n) v).mp h)
    · exact h
  have hfilter : (List.range n).filter
      (fun v => !(revise_condition (List.range n) v)) = List.range n := by
    apply List.filter_eq_self.mpr
    intro v hv
    rw [hcond v hv]
    rfl
  have hany : (List.range n).any (revise_condition (List.range n)) = false := by
    rw [List.any_eq_false]
    intro v hv
    rw [hcond v hv]
    exact Bool.false_ne_true
  rw [hfilter, hany]
  rw [← initDomains_getD n x hx, set_getD_self [] (initDomains n) x]

theorem ac3Loop_init (n : ℕ) (cs : List (ℕ × ℕ)) :
    ∀ (fuel : ℕ) (queue : List (ℕ × ℕ)),
      (∀ p ∈ queue, p.1 < n ∧ p.2 < n) → queue.length < fuel →
      ac3Loop cs fuel (initDomains n) queue = some (true, initDomains n) := by
  intro fuel
  induction fuel with
  | zero => intro queue _ h; omega
  | succ fuel ih =>
      intro queue hq h
      match queue with
      | [] => rfl
      | (x, y) :: rest =>
          obtain ⟨hx, hy⟩ := hq (x, y) (List.mem_cons_self _ _)
          simp only [ac3Loop]
          rw [revise_init n x y hx hy]
          simp only [Bool.false_eq_true, if_false, ite_false]
          apply ih rest (fun p hp => hq p (List.mem_cons_of_mem _ hp))
          simp only [List.length_cons] at h
          omega

/-- Claim C10: on the store `input_reader` builds (every domain the full row
range `[0, n)`), the AC-3 pass removes nothing and reports success: it returns
`true` with every domain still exactly `List.range n`. -/
theorem ac3_identity_on_fresh_domains (n : ℕ) :
    apply_arcconsistency_algorithm (initDomains n) (constraintsOf n) =
      some (true, initDomains n) := by
  apply ac3Loop_init n (constraintsOf n) _ (constraintsOf n)
  · intro p hp
    obtain ⟨h1, h2, _⟩ := constraintsOf_mem n p hp
    exact ⟨h1, h2⟩
  · unfold ac3Fuel
    generalize totalSize (initDomains n) * ((constraintsOf n).length + 1) = A
    omega

/-- Claim C7: the AC-3 run always terminates with a result; every final domain
is a subset of the corresponding initial domain, and if it reports failure
then some variable's domain is empty in the final store. -/
theorem ac3_monotone_failure_empty (doms : Domains) (cs : List (ℕ × ℕ)) :
    ∃ (b : Bool) (doms' : Domains),
      apply_arcconsistency_algorithm doms cs = some (b, doms') ∧
      (∀ i, doms'.getD i [] ⊆ doms.getD i []) ∧
      (b = false → ∃ x, x < doms'.length ∧ doms'.getD x [] = []) := by
  have hs := apply_ac3_isSome doms cs
  match hmatch : apply_arcconsistency_algorithm doms cs with
  | none => rw [hmatch] at hs; simp at hs
  | some (b, doms') =>
      obtain ⟨hsub, _, hemp⟩ := ac3Loop_invariant cs (ac3Fuel doms cs) doms cs b doms' hmatch
      exact ⟨b, doms', rfl, hsub, hemp⟩

/-- Witness for claim C7's failure arm at a concrete store: on the store
`{0: [0], 1: [1]}` with the single constraint `(0, 1)`, AC-3 reports failure
and variable 0's domain is empty. -/
theorem ac3_monotone_failure_empty_witness :
    ∃ (b : Bool) (doms' : Domains),
      apply_arcconsistency_algorithm [[0], [1]] [(0, 1)] = some (b, doms') ∧
      b = false ∧ (∃ x, x < doms'.length ∧ doms'.getD x [] = []) := by
  obtain ⟨b, doms', heq, _, hemp⟩ := ac3_monotone_failure_empty [[0], [1]] [(0, 1)]
  have hconc : apply_arcconsistency_algorithm [[0], [1]] [(0, 1)] =
      some (false, [[], [1]]) := by decide
  rw [hconc] at heq
  injection heq with h2
  rw [Prod.mk.injEq] at h2
  obtain ⟨hb, hd⟩ := h2
  subst hb
  subst hd
  exact ⟨false, [[], [1]], hconc, rfl, hemp rfl⟩


/-! ## The actual semantics of `revise_domains` (claim C3) -/

theorem revise_condition_eq_decide (dy : List ℕ) (v : ℕ) :
    revise_condition dy v = !(decide (v ∈ dy)) := by
  by_cases hm : v ∈ dy
  · have h1 : revise_condition dy v = false := by
      by_cases h : revise_condition dy v = true
      · exact absurd hm ((revise_condition_iff dy v).mp h)
      · exact Bool.eq_false_iff.mpr h
    rw [h1, decide_eq_true hm]
    rfl
  · rw [(revise_condition_iff dy v).mpr hm, decide_eq_false hm]
    rfl

/-- Claim C3 as stated is false on the code: in the store `{0: [0], 1: [1]}`,
variable 1's domain holds the value 1, which differs from 0 and is therefore
"compatible" with it under the no-equal-value notion, so the claim predicts
`revise(0, 1)` keeps 0 in variable 0's domain — yet the code removes it (the
shadowed comprehension variable turns the support test into a membership
test). -/
theorem revise_domains_claim_counterexample :
    (0 ∈ ([[0], [1]] : Domains).getD 0 []) ∧
    (∃ w ∈ ([[0], [1]] : Domains).getD 1 [], w ≠ 0) ∧
    0 ∉ (revise_domains [[0], [1]] 0 1).1.getD 0 [] ∧
    (revise_domains [[0], [1]] 0 1).2 = true := by decide

/-- Claim C3, amended: for distinct variables `x ≠ y`, `revise_domains x y`
keeps a value `v` of x's domain exactly when `v` is a member of y's domain
(so it removes `v` exactly when y's domain contains no value *equal* to `v`;
in particular an empty y-domain removes everything), it reports `true` exactly
when at least one value was removed, and no other variable's domain changes. -/
theorem revise_domains_membership_spec (doms : Domains) (x y : ℕ) (_hxy : x ≠ y) :
    ((revise_domains doms x y).1.getD x [] =
        (doms.getD x []).filter (fun v => decide (v ∈ doms.getD y []))) ∧
    ((revise_domains doms x y).2 = true ↔
        ∃ v ∈ doms.getD x [], v ∉ doms.getD y []) ∧
    (∀ i, i ≠ x → (revise_domains doms x y).1.getD i [] = doms.getD i []) := by
  rw [revise_domains_eq]
  refine ⟨?_, ?_, ?_⟩
  · by_cases hx : x < doms.length
    · rw [List.getD_eq_getElem?_getD, List.getElem?_set_self hx]
      simp only [Option.getD_some]
      apply List.filter_congr
      intro v _
      rw [revise_condition_eq_decide, Bool.not_not]
    · rw [List.set_eq_of_length_le (Nat.le_of_not_lt hx)]
      have hnil : doms.getD x [] = [] := by
        rw [List.getD_eq_getElem?_getD, List.getElem?_eq_none (Nat.le_of_not_lt hx)]
        rfl
      rw [hnil]
      rfl
  · rw [List.any_eq_true]
    constructor
    · rintro ⟨v, hv, hc⟩
      exact ⟨v, hv, (revise_condition_iff _ v).mp hc⟩
    · rintro ⟨v, hv, hnm⟩
      exact ⟨v, hv, (revise_condition_iff _ v).mpr hnm⟩
  · intro i hi
    exact getD_set_ne [] doms _ (fun h => hi h.symm)

/-- Witness for the amended claim C3 at the concrete store `{0: [0, 1],
1: [1]}` with `x = 0 ≠ 1 = y`. -/
theorem revise_domains_membership_spec_witness :
    ((revise_domains [[0, 1], [1]] 0 1).1.getD 0 [] =
        (([[0, 1], [1]] : Domains).getD 0 []).filter
          (fun v => decide (v ∈ ([[0, 1], [1]] : Domains).getD 1 []))) ∧
    ((revise_domains [[0, 1], [1]] 0 1).2 = true ↔
        ∃ v ∈ ([[0, 1], [1]] : Domains).getD 0 [],
          v ∉ ([[0, 1], [1]] : Domains).getD 1 []) ∧
    (∀ i, i ≠ 0 →
        (revise_domains [[0, 1], [1]] 0 1).1.getD i [] =
          ([[0, 1], [1]] : Domains).getD i []) :=
  revise_domains_membership_spec [[0, 1], [1]] 0 1 (by decide)

/-! ## The MRV variable choice (claim C4) -/

theorem selKeyLt_iff (p q : ℕ × ℤ) :
    selKeyLt p q = true ↔ (p.1 < q.1 ∨ (p.1 = q.1 ∧ p.2 < q.2)) := by
  simp [selKeyLt]

theorem selKeyLt_irrefl (p : ℕ × ℤ) : selKeyLt p p = false := by
  simp [selKeyLt]

theorem selKeyLt_trans (p q r : ℕ × ℤ) (h1 : selKeyLt p q = true)
    (h2 : selKeyLt q r = true) : selKeyLt p r = true := by
  rw [selKeyLt_iff] at h1 h2 ⊢
  omega

theorem selKeyLt_total (p q : ℕ × ℤ) (h : selKeyLt p q = false) :
    selKeyLt q p = true ∨ p = q := by
  have h' : ¬ (selKeyLt p q = true) := by
    rw [h]
    exact Bool.false_ne_true
  rw [selKeyLt_iff] at h'
  rw [selKeyLt_iff, Prod.ext_iff]
  omega

theorem selFold_cons (doms : Domains) (u v : ℕ) (us : List ℕ) :
    selFold doms u (v :: us) =
      selFold doms (if selKeyLt (selKey doms v) (selKey doms u) then v else u) us := rfl

theorem selFold_mem (doms : Domains) :
    ∀ (us : List ℕ) (u : ℕ), selFold doms u us ∈ u :: us
  | [], u => List.mem_cons_self _ _
  | v :: us, u => by
      rw [selFold_cons]
      by_cases hvu : selKeyLt (selKey doms v) (selKey doms u) = true
      · rw [if_pos hvu]
        rcases List.mem_cons.mp (selFold_mem doms us v) with h' | h'
        · rw [h']
          exact List.mem_cons_of_mem _ (List.mem_cons_self _ _)
        · exact List.mem_cons_of_mem _ (List.mem_cons_of_mem _ h')
      · rw [if_neg hvu]
        rcases List.mem_cons.mp (selFold_mem doms us u) with h' | h'
        · rw [h']
          exact List.mem_cons_self _ _
        · exact List.mem_cons_of_mem _ (List.mem_cons_of_mem _ h')

theorem selFold_min (doms : Domains) :
    ∀ (us : List ℕ) (u w : ℕ), w ∈ u :: us →
      selKeyLt (selKey doms w) (selKey doms (selFold doms u us)) = false
  | [], u, w, hw => by
      rw [List.mem_singleton] at hw
      rw [hw]
      exact selKeyLt_irrefl _
  | v :: us, u, w, hw => by
      rw [selFold_cons]
      by_cases hvu : selKeyLt (selKey doms v) (selKey doms u) = true
      · rw [if_pos hvu]
        rcases List.mem_cons.mp hw with h | h
        · rw [h]
          by_cases habs : selKeyLt (selKey doms u) (selKey doms (selFold doms v us)) = true
          · have hvm := selFold_min doms us v v (List.mem_cons_self _ _)
            exact absurd (selKeyLt_trans _ _ _ hvu habs)
              (by rw [hvm]; exact Bool.false_ne_true)
          · exact Bool.eq_false_iff.mpr habs
        · exact selFold_min doms us v w h
      · rw [if_neg hvu]
        rcases List.mem_cons.mp hw with h | h
        · rw [h]
          exact selFold_min doms us u u (List.mem_cons_self _ _)
        · rcases List.mem_cons.mp h with h' | h'
          · rw [h']
            have hfu := selFold_min doms us u u (List.mem_cons_self _ _)
            rcases selKeyLt_total _ _ (Bool.eq_false_iff.mpr hvu) with huv | heq
            · by_cases habs : selKeyLt (selKey doms v)
                  (selKey doms (selFold doms u us)) = true
              · exact absurd (selKeyLt_trans _ _ _ huv habs)
                  (by rw [hfu]; exact Bool.false_ne_true)
              · exact Bool.eq_false_iff.mpr habs
            · rw [heq]
              exact hfu
          · exact selFold_min doms us u w (List.mem_cons_of_mem _ h')

/-- Claim C4: whenever at least one variable is unassigned,
`select_unassigned` returns an unassigned variable of minimum current domain
size, and among the unassigned variables of that minimum size it is the one
of largest index. -/
theorem select_unassigned_mrv (doms : Domains) (assignment : Assignment)
    (h : (List.range doms.length).filter (fun v => !(keysMem assignment v)) ≠ []) :
    ∃ m, select_unassigned doms assignment = some m ∧
      m ∈ (List.range doms.length).filter (fun v => !(keysMem assignment v)) ∧
      ∀ u ∈ (List.range doms.length).filter (fun v => !(keysMem assignment v)),
        (doms.getD m []).length ≤ (doms.getD u []).length ∧
          ((doms.getD u []).length = (doms.getD m []).length → u ≤ m) := by
  match hfil : (List.range doms.length).filter (fun v => !(keysMem assignment v)) with
  | [] => exact absurd hfil h
  | u :: us =>
      refine ⟨selFold doms u us, ?_, ?_, ?_⟩
      · simp only [select_unassigned, hfil]
      · exact selFold_mem doms us u
      · intro w hw
        have hf := selFold_min doms us u w hw
        have hf' : ¬ (selKeyLt (selKey doms w) (selKey doms (selFold doms u us)) = true) := by
          rw [hf]
          exact Bool.false_ne_true
        rw [selKeyLt_iff] at hf'
        simp only [selKey] at hf'
        omega

/-! ## The LCV value ordering (claim C5) -/

theorem insertDesc_perm (p : ℕ × ℕ) :
    ∀ l : List (ℕ × ℕ), List.Perm (insertDesc p l) (p :: l)
  | [] => List.Perm.refl _
  | q :: qs => by
      rw [insertDesc]
      by_cases h : q.1 < p.1
      · rw [if_pos h]
      · rw [if_neg h]
        exact ((insertDesc_perm p qs).cons q).trans (List.Perm.swap p q qs)

theorem mem_insertDesc (p x : ℕ × ℕ) (l : List (ℕ × ℕ)) :
    x ∈ insertDesc p l ↔ x = p ∨ x ∈ l := by
  rw [(insertDesc_perm p l).mem_iff, List.mem_cons]

theorem insertDesc_sorted (p : ℕ × ℕ) :
    ∀ l : List (ℕ × ℕ), List.Pairwise (fun x y : ℕ × ℕ => y.1 ≤ x.1) l →
      List.Pairwise (fun x y : ℕ × ℕ => y.1 ≤ x.1) (insertDesc p l)
  | [], _ => List.pairwise_singleton _ _
  | q :: qs, h => by
      rw [List.pairwise_cons] at h
      obtain ⟨hq, hqs⟩ := h
      rw [insertDesc]
      by_cases hlt : q.1 < p.1
      · rw [if_pos hlt]
        rw [List.pairwise_cons]
        refine ⟨?_, List.pairwise_cons.mpr ⟨hq, hqs⟩⟩
        intro b hb
        rcases List.mem_cons.mp hb with rfl | hb'
        · exact Nat.le_of_lt hlt
        · exact Nat.le_trans (hq b hb') (Nat.le_of_lt hlt)
      · rw [if_neg hlt]
        rw [List.pairwise_cons]
        refine ⟨?_, insertDesc_sorted p qs hqs⟩
        intro b hb
        rcases (mem_insertDesc p b qs).mp hb with rfl | hb'
        · exact Nat.le_of_not_lt hlt
        · exact hq b hb'

theorem foldl_insert_perm :
    ∀ (l acc : List (ℕ × ℕ)),
      List.Perm (l.foldl (fun acc p => insertDesc p acc) acc) (acc ++ l)
  | [], acc => by simp
  | p :: t, acc => by
      rw [List.foldl_cons]
      refine (foldl_insert_perm t (insertDesc p acc)).trans ?_
      refine (((insertDesc_perm p acc).append_right t).trans ?_)
      exact List.perm_middle.symm

theorem sortDesc_perm (l : List (ℕ × ℕ)) : List.Perm (sortDesc l) l := by
  simpa using foldl_insert_perm l []

theorem foldl_insert_sorted :
    ∀ (l acc : List (ℕ × ℕ)), List.Pairwise (fun x y : ℕ × ℕ => y.1 ≤ x.1) acc →
      List.Pairwise (fun x y : ℕ × ℕ => y.1 ≤ x.1)
        (l.foldl (fun acc p => insertDesc p acc) acc)
  | [], acc, h => h
  | p :: t, acc, h => by
      rw [List.foldl_cons]
      exact foldl_insert_sorted t (insertDesc p acc) (insertDesc_sorted p acc h)

theorem sortDesc_sorted (l : List (ℕ × ℕ)) :
    List.Pairwise (fun x y : ℕ × ℕ => y.1 ≤ x.1) (sortDesc l) :=
  foldl_insert_sorted l [] (List.Pairwise.nil)

theorem filter_insertDesc (s : ℕ) (p : ℕ × ℕ) :
    ∀ l : List (ℕ × ℕ), List.Pairwise (fun x y : ℕ × ℕ => y.1 ≤ x.1) l →
      (insertDesc p l).filter (fun q => q.1 == s) =
        if p.1 == s then l.filter (fun q => q.1 == s) ++ [p]
        else l.filter (fun q => q.1 == s)
  | [], _ => by
      by_cases hp : p.1 == s
      · rw [if_pos hp]
        simp [insertDesc, List.filter_cons, hp]
      · rw [if_neg hp]
        simp [insertDesc, List.filter_cons, hp]
  | q :: qs, h => by
      rw [List.pairwise_cons] at h
      obtain ⟨hq, hqs⟩ := h
      rw [insertDesc]
      by_cases hlt : q.1 < p.1
      · rw [if_pos hlt]
        by_cases hp : p.1 = s
        · rw [if_pos (by simpa using hp)]
          have hnil : (q :: qs).filter (fun q => q.1 == s) = [] := by
            rw [List.filter_eq_nil_iff]
            intro b hb
            have hble : b.1 ≤ q.1 := by
              rcases List.mem_cons.mp hb with rfl | hb'
              · exact Nat.le_refl _
              · exact hq b hb'
            simp only [beq_iff_eq]
            omega
          rw [hnil, List.filter_cons, if_pos (by simpa using hp), hnil]
          rfl
        · rw [if_neg (by simpa using hp), List.filter_cons,
            if_neg (by simpa using hp)]
      · rw [if_neg hlt]
        rw [List.filter_cons, List.filter_cons, filter_insertDesc s p qs hqs]
        by_cases hqv : q.1 == s
        · rw [if_pos hqv, if_pos hqv]
          by_cases hp : p.1 == s
          · rw [if_pos hp, if_pos hp]
            rfl
          · rw [if_neg hp, if_neg hp]
        · rw [if_neg hqv, if_neg hqv]

theorem foldl_insert_filter (s : ℕ) :
    ∀ (l acc : List (ℕ × ℕ)), List.Pairwise (fun x y : ℕ × ℕ => y.1 ≤ x.1) acc →
      (l.foldl (fun acc p => insertDesc p acc) acc).filter (fun q => q.1 == s) =
        acc.filter (fun q => q.1 == s) ++ l.filter (fun q => q.1 == s)
  | [], acc, _ => by simp
  | p :: t, acc, h => by
      rw [List.foldl_cons, foldl_insert_filter s t (insertDesc p acc)
        (insertDesc_sorted p acc h), filter_insertDesc s p acc h]
      rw [List.filter_cons]
      by_cases hp : p.1 == s
      · rw [if_pos hp, if_pos hp, List.append_assoc]
        rfl
      · rw [if_neg hp, if_neg hp]

theorem sortDesc_filter (s : ℕ) (l : List (ℕ × ℕ)) :
    (sortDesc l).filter (fun q => q.1 == s) = l.filter (fun q => q.1 == s) := by
  simpa using foldl_insert_filter s l [] (List.Pairwise.nil)

theorem sortDesc_decorated_fst (doms : Domains) (sv : ℕ) (a : Assignment) :
    ∀ q ∈ sortDesc ((doms.getD sv []).map
        (fun v => (calculate_lcv doms sv a v, v))),
      q.1 = calculate_lcv doms sv a q.2 := by
  intro q hq
  have hq' := (sortDesc_perm _).mem_iff.mp hq
  rw [List.mem_map] at hq'
  obtain ⟨v, _, rfl⟩ := hq'
  rfl

theorem map_snd_decorated (doms : Domains) (sv : ℕ) (a : Assignment) :
    (((doms.getD sv []).map (fun v => (calculate_lcv doms sv a v, v))).map Prod.snd) =
      doms.getD sv [] := by
  rw [List.map_map]
  exact List.map_id'' (fun x => rfl) _

/-- Claim C5: `prioritize_domain_values` returns exactly the values of the
variable's domain, reordered so that the compatibility scores computed by
`calculate_lcv` are descending, and values of equal score keep the domain's
original relative order (stability of Python's `sorted` with
`reverse=True`). -/
theorem prioritize_domain_values_lcv (doms : Domains) (sv : ℕ) (a : Assignment) :
    List.Perm (prioritize_domain_values doms sv a) (doms.getD sv []) ∧
    List.Pairwise
      (fun v w => calculate_lcv doms sv a w ≤ calculate_lcv doms sv a v)
      (prioritize_domain_values doms sv a) ∧
    (∀ s : ℕ,
      (prioritize_domain_values doms sv a).filter
          (fun v => calculate_lcv doms sv a v == s) =
        (doms.getD sv []).filter (fun v => calculate_lcv doms sv a v == s)) := by
  refine ⟨?_, ?_, ?_⟩
  · unfold prioritize_domain_values
    refine ((sortDesc_perm _).map Prod.snd).trans ?_
    rw [map_snd_decorated]
  · unfold prioritize_domain_values
    rw [List.pairwise_map]
    refine List.Pairwise.imp_of_mem ?_ (sortDesc_sorted _)
    intro x y hx hy hle
    rw [sortDesc_decorated_fst doms sv a x hx,
      sortDesc_decorated_fst doms sv a y hy] at hle
    exact hle
  · intro s
    unfold prioritize_domain_values
    rw [List.filter_map]
    have h1 : (sortDesc ((doms.getD sv []).map
          (fun v => (calculate_lcv doms sv a v, v)))).filter
            ((fun v => calculate_lcv doms sv a v == s) ∘ Prod.snd) =
        (sortDesc ((doms.getD sv []).map
          (fun v => (calculate_lcv doms sv a v, v)))).filter (fun q => q.1 == s) := by
      apply List.filter_congr
      intro q hq
      simp only [Function.comp_apply]
      rw [sortDesc_decorated_fst doms sv a q hq]
    have h2 : (((doms.getD sv []).map
          (fun v => (calculate_lcv doms sv a v, v)))).filter (fun q => q.1 == s) =
        (((doms.getD sv []).map
          (fun v => (calculate_lcv doms sv a v, v)))).filter
            ((fun v => calculate_lcv doms sv a v == s) ∘ Prod.snd) := by
      apply List.filter_congr
      intro q hq
      rw [List.mem_map] at hq
      obtain ⟨v, _, rfl⟩ := hq
      rfl
    rw [h1, sortDesc_filter, h2, ← List.filter_map, map_snd_decorated]

/-! ## The backtracking undo discipline (claim C6) -/

theorem keysMem_false_iff (a : Assignment) (k : ℕ) :
    keysMem a k = false ↔ ∀ p ∈ a, p.1 ≠ k := by
  rw [keysMem, List.any_eq_false]
  constructor
  · intro h p hp
    have := h p hp
    simpa using this
  · intro h p hp
    simpa using h p hp

theorem dictInsert_not_mem (a : Assignment) (k v : ℕ) (h : keysMem a k = false) :
    dictInsert a k v = a ++ [(k, v)] := by
  rw [dictInsert, h]
  rfl

theorem dictErase_append_self (a : Assignment) (k v : ℕ) (h : ∀ p ∈ a, p.1 ≠ k) :
    dictErase (a ++ [(k, v)]) k = a := by
  rw [dictErase, List.filter_append]
  have h1 : a.filter (fun p => !(p.1 == k)) = a := by
    apply List.filter_eq_self.mpr
    intro p hp
    simpa using h p hp
  have h2 : ([(k, v)] : Assignment).filter (fun p => !(p.1 == k)) = [] := by simp
  rw [h1, h2, List.append_nil]

theorem WFAssign_insert (n : ℕ) (a : Assignment) (k v : ℕ) (hwf : WFAssign n a)
    (hk : k < n) (hne : ∀ p ∈ a, p.1 ≠ k) : WFAssign n (a ++ [(k, v)]) := by
  obtain ⟨hnd, hbd⟩ := hwf
  constructor
  · rw [List.map_append, List.nodup_append]
    refine ⟨hnd, List.nodup_singleton _, ?_⟩
    intro x hx
    rw [List.mem_map] at hx
    obtain ⟨p, hp, rfl⟩ := hx
    simpa using hne p hp
  · intro x hx
    rw [List.map_append, List.mem_append] at hx
    rcases hx with hx | hx
    · exact hbd x hx
    · have : x = k := by simpa using hx
      rw [this]
      exact hk

theorem select_unassigned_mem (doms : Domains) (a : Assignment) (nv : ℕ)
    (h : select_unassigned doms a = some nv) :
    nv ∈ (List.range doms.length).filter (fun v => !(keysMem a v)) := by
  match hfil : (List.range doms.length).filter (fun v => !(keysMem a v)) with
  | [] =>
      rw [select_unassigned, hfil] at h
      exact absurd h (by simp)
  | u :: us =>
      rw [select_unassigned, hfil] at h
      injection h with h'
      rw [← h']
      exact selFold_mem doms us u

theorem tryValues_restore (n nv : ℕ) (hnvlt : nv < n)
    (rec : Assignment → Option (Option Assignment × Assignment))
    (hrec : ∀ (a' st : Assignment), WFAssign n a' → rec a' = some (none, st) → st = a') :
    ∀ (vs : List ℕ) (cur st : Assignment), WFAssign n cur → (∀ p ∈ cur, p.1 ≠ nv) →
      tryValues nv rec vs cur = some (none, st) → st = cur
  | [], cur, st, _, _, h => by
      rw [tryValues] at h
      injection h with h'
      injection h' with _ h2
      exact h2.symm
  | v :: rest, cur, st, hwf, hne, h => by
      rw [tryValues] at h
      by_cases hcons : check_consistency nv v cur = true
      · rw [if_pos hcons] at h
        match hreceq : rec (dictInsert cur nv v) with
        | none =>
            rw [hreceq] at h
            change (none : Option (Option Assignment × Assignment)) = some (none, st) at h
            exact absurd h (by simp)
        | some (some sol, st') =>
            rw [hreceq] at h
            change some (some sol, st') = some (none, st) at h
            injection h with h'
            injection h' with h1 _
            exact absurd h1 (by simp)
        | some (none, st') =>
            rw [hreceq] at h
            change tryValues nv rec rest (dictErase st' nv) = some (none, st) at h
            have hkm : keysMem cur nv = false := (keysMem_false_iff cur nv).mpr hne
            have hins : dictInsert cur nv v = cur ++ [(nv, v)] :=
              dictInsert_not_mem cur nv v hkm
            have hwf' : WFAssign n (dictInsert cur nv v) := by
              rw [hins]
              exact WFAssign_insert n cur nv v hwf hnvlt hne
            have hst' : st' = dictInsert cur nv v := hrec _ _ hwf' hreceq
            have her : dictErase st' nv = cur := by
              rw [hst', hins]
              exact dictErase_append_self cur nv v hne
            rw [her] at h
            exact tryValues_restore n nv hnvlt rec hrec rest cur st hwf hne h
      · rw [if_neg hcons] at h
        exact tryValues_restore n nv hnvlt rec hrec rest cur st hwf hne h

/-- Claim C6: whenever a recursive backtracking step `attempt_solution` run on
a well-formed partial assignment returns failure (Python `None`), the
assignment dict on return is exactly the one passed in: every tentative entry
added inside the call was removed again and no caller entry changed. -/
theorem attempt_solution_restores (doms : Domains) :
    ∀ (fuel : ℕ) (a st : Assignment), WFAssign doms.length a →
      attempt_solution doms fuel a = some (none, st) → st = a := by
  intro fuel
  induction fuel with
  | zero =>
      intro a st _ h
      exact absurd h (by simp [attempt_solution])
  | succ fuel ih =>
      intro a st hwf h
      rw [attempt_solution] at h
      by_cases hlen : a.length = doms.length
      · rw [if_pos hlen] at h
        injection h with h'
        injection h' with h1 _
        exact absurd h1 (by simp)
      · rw [if_neg hlen] at h
        match hsel : select_unassigned doms a with
        | none =>
            rw [hsel] at h
            change (none : Option (Option Assignment × Assignment)) = some (none, st) at h
            exact absurd h (by simp)
        | some nv =>
            rw [hsel] at h
            change tryValues nv (attempt_solution doms fuel)
              (prioritize_domain_values doms nv a) a = some (none, st) at h
            have hmem := select_unassigned_mem doms a nv hsel
            rw [List.mem_filter, List.mem_range] at hmem
            obtain ⟨hlt, hkm⟩ := hmem
            have hkm' : keysMem a nv = false := by simpa using hkm
            have hne : ∀ p ∈ a, p.1 ≠ nv := (keysMem_false_iff a nv).mp hkm'
            exact tryValues_restore doms.length nv hlt (attempt_solution doms fuel)
              (fun a' st' hwf' heq => ih a' st' hwf' heq) _ a st hwf hne h

/-- Witness for claim C6 at a concrete failing search: for `n = 2` the search
from the empty assignment fails and hands back the empty assignment. -/
theorem attempt_solution_restores_witness :
    attempt_solution (initDomains 2) 3 [] = some (none, ([] : Assignment)) ∧
    ([] : Assignment) = [] :=
  ⟨by decide,
    attempt_solution_restores (initDomains 2) 3 [] []
      ⟨List.nodup_nil, by simp⟩ (by decide)⟩

/-! ## The solve entry point on concrete board sizes (claims C1, C2, C8, C9) -/

/-- Witness for claim C4 at a concrete store: with domains `{0: [0],
1: [0, 1]}` and the empty assignment both variables are unassigned, and the
hypothesis and conclusion of `select_unassigned_mrv` hold. -/
theorem select_unassigned_mrv_witness :
    ((List.range ([[0], [0, 1]] : Domains).length).filter
        (fun v => !(keysMem ([] : Assignment) v)) ≠ []) ∧
    ∃ m, select_unassigned [[0], [0, 1]] [] = some m ∧
      m ∈ (List.range ([[0], [0, 1]] : Domains).length).filter
        (fun v => !(keysMem ([] : Assignment) v)) ∧
      ∀ u ∈ (List.range ([[0], [0, 1]] : Domains).length).filter
          (fun v => !(keysMem ([] : Assignment) v)),
        (([[0], [0, 1]] : Domains).getD m []).length ≤
            (([[0], [0, 1]] : Domains).getD u []).length ∧
          ((([[0], [0, 1]] : Domains).getD u []).length =
              (([[0], [0, 1]] : Domains).getD m []).length → u ≤ m) :=
  ⟨by decide, select_unassigned_mrv [[0], [0, 1]] [] (by decide)⟩

/-- Claim C2: for board sizes 2 and 3 the solve entry point returns a clean
failure (Python `None`): the backtracking search from the empty assignment
exhausts every branch without a complete assignment, and no exception is
raised. -/
theorem solve_two_three_fail :
    solve 2 = Except.ok none ∧ solve 3 = Except.ok none :=
  ⟨by decide, by decide⟩

/-- Claim C1: for every board size n in {0, 1, 4, 5, 8} the solve entry point
(AC-3 preprocessing, then backtracking from the empty assignment) returns a
complete assignment: exactly n entries, keys pairwise distinct and covering
every column in `[0, n)`, and any two entries of distinct columns share
neither a row nor a diagonal. -/
theorem solve_small_boards_complete_valid :
    (∃ s, solve 0 = Except.ok (some s) ∧ s.length = 0 ∧
      (s.map Prod.fst).Nodup ∧ (∀ v ∈ List.range 0, v ∈ s.map Prod.fst) ∧
      ∀ p ∈ s, ∀ q ∈ s, p.1 ≠ q.1 →
        p.2 ≠ q.2 ∧ absDiff p.2 q.2 ≠ absDiff p.1 q.1) ∧
    (∃ s, solve 1 = Except.ok (some s) ∧ s.length = 1 ∧
      (s.map Prod.fst).Nodup ∧ (∀ v ∈ List.range 1, v ∈ s.map Prod.fst) ∧
      ∀ p ∈ s, ∀ q ∈ s, p.1 ≠ q.1 →
        p.2 ≠ q.2 ∧ absDiff p.2 q.2 ≠ absDiff p.1 q.1) ∧
    (∃ s, solve 4 = Except.ok (some s) ∧ s.length = 4 ∧
      (s.map Prod.fst).Nodup ∧ (∀ v ∈ List.range 4, v ∈ s.map Prod.fst) ∧
      ∀ p ∈ s, ∀ q ∈ s, p.1 ≠ q.1 →
        p.2 ≠ q.2 ∧ absDiff p.2 q.2 ≠ absDiff p.1 q.1) ∧
    (∃ s, solve 5 = Except.ok (some s) ∧ s.length = 5 ∧
      (s.map Prod.fst).Nodup ∧ (∀ v ∈ List.range 5, v ∈ s.map Prod.fst) ∧
      ∀ p ∈ s, ∀ q ∈ s, p.1 ≠ q.1 →
        p.2 ≠ q.2 ∧ absDiff p.2 q.2 ≠ absDiff p.1 q.1) ∧
    (∃ s, solve 8 = Except.ok (some s) ∧ s.length = 8 ∧
      (s.map Prod.fst).Nodup ∧ (∀ v ∈ List.range 8, v ∈ s.map Prod.fst) ∧
      ∀ p ∈ s, ∀ q ∈ s, p.1 ≠ q.1 →
        p.2 ≠ q.2 ∧ absDiff p.2 q.2 ≠ absDiff p.1 q.1) :=
  ⟨⟨[], by decide⟩,
    ⟨[(0, 0)], by decide⟩,
    ⟨[(3, 1), (2, 3), (1, 0), (0, 2)], by decide⟩,
    ⟨[(4, 0), (3, 3), (2, 1), (1, 4), (0, 2)], by decide⟩,
    ⟨[(7, 0), (6, 5), (5, 7), (4, 2), (3, 6), (2, 3), (1, 1), (0, 4)], by decide⟩⟩

/-- Claim C8 (a code bug): when the AC-3 phase empties a domain and signals
failure, the backtracking search is indeed never entered, but the program
does not report a clean failure: `solution_assignment` was never bound, so
line 223 of `resolve_nqueens` raises `UnboundLocalError`.  Shown at a store
AC-3 rejects (no such store is reachable from `input_reader`, which always
builds identical full domains). -/
theorem resolve_ac3_failure_unbound :
    apply_arcconsistency_algorithm [[0], [1]] [(0, 1)] = some (false, [[], [1]]) ∧
    resolve_core [[0], [1]] [(0, 1)] = Except.error RunError.unboundLocal :=
  ⟨by decide, by decide⟩

/-- Claim C9: the solve result is a function of the board size alone.  The
initial queen positions `input_reader` returns (whether read from a file or
drawn at random) never reach the CSP engine: two inputs of equal board size
yield identical results, and each equals `solve` of that size, since the
search always starts from the empty assignment. -/
theorem resolve_depends_only_on_size (src src' : InputSource)
    (h : boardSize src = boardSize src') :
    resolve_nqueens src = resolve_nqueens src' ∧
    resolve_nqueens src = solve (boardSize src) := by
  have h1 : ∀ t, resolve_nqueens t = solve (boardSize t) := by
    intro t
    cases t with
    | random n rows => rfl
    | file qc => rfl
  rw [h1 src, h1 src', h]
  exact ⟨rfl, rfl⟩

/-- Witness for claim C9: a file input `[0, 1]` and a random input of board
size 2 with different queen columns produce identical results. -/
theorem resolve_depends_only_on_size_witness :
    boardSize (InputSource.file [0, 1]) = boardSize (InputSource.random 2 [5, 5]) ∧
    resolve_nqueens (InputSource.file [0, 1]) =
      resolve_nqueens (InputSource.random 2 [5, 5]) ∧
    resolve_nqueens (InputSource.file [0, 1]) =
      solve (boardSize (InputSource.file [0, 1])) :=
  ⟨rfl, (resolve_depends_only_on_size (InputSource.file [0, 1])
      (InputSource.random 2 [5, 5]) rfl).1,
    (resolve_depends_only_on_size (InputSource.file [0, 1])
      (InputSource.random 2 [5, 5]) rfl).2⟩

end NQ
